import Mathlib

/-!
Verification of the address-book serialization core: the four codecs
(json, yaml, html_table, formatted_text) and the codec registry of
`address_book_encoding.py`, embedded shallowly over `List Char` strings.
-/

/-- A contact in the canonical wire shape: one single-key mapping
`name -> \x7baddress, phone_number\x7d` with string values.  Python strings are
modelled as `List Char`. -/
structure Contact where
  name : List Char
  address : List Char
  phone_number : List Char
deriving DecidableEq, Repr

/-! ### Python `str.split(sep)` for a non-empty separator

`pySplitGo` scans left to right; on a separator match it emits the
accumulated fragment and restarts after the separator (leftmost,
non-overlapping — exactly CPython `str.split` with an explicit separator).
The fuel argument makes the recursion structural; `pySplit` supplies
`s.length + 1`, which is always sufficient. -/

def pySplitGo (sh : Char) (st : List Char) : Nat → List Char → List Char → List (List Char)
  | 0, acc, s => [acc.reverse ++ s]
  | f + 1, acc, s =>
    if (sh :: st).isPrefixOf s then
      acc.reverse :: pySplitGo sh st f [] (s.drop (st.length + 1))
    else
      match s with
      | [] => [acc.reverse]
      | c :: rest => pySplitGo sh st f (c :: acc) rest

/-- Python `s.split(sep)`.  The `[]` separator case is unreachable in the
modelled code (Python raises `ValueError` for an empty separator). -/
def pySplit (sep s : List Char) : List (List Char) :=
  match sep with
  | [] => [s]
  | sh :: st => pySplitGo sh st (s.length + 1) [] s

/-! ### Prefix facts used to reason about `pySplit` -/

theorem isPrefixOf_self_append (l t : List Char) : l.isPrefixOf (l ++ t) = true := by
  induction l with
  | nil => simp [List.isPrefixOf]
  | cons c cs ih => simp [List.isPrefixOf, ih]

theorem exists_of_isPrefixOf {l₁ l₂ : List Char} (h : l₁.isPrefixOf l₂ = true) :
    ∃ t, l₂ = l₁ ++ t := by
  induction l₁ generalizing l₂ with
  | nil => exact ⟨l₂, rfl⟩
  | cons c cs ih =>
    cases l₂ with
    | nil => simp [List.isPrefixOf] at h
    | cons d ds =>
      simp only [List.isPrefixOf, Bool.and_eq_true, beq_iff_eq] at h
      obtain ⟨rfl, h2⟩ := h
      obtain ⟨t, rfl⟩ := ih h2
      exact ⟨t, rfl⟩

/-- `SepMiss sep a`: from every start position inside `a`, matching `sep`
fails at some index still inside `a`.  This guarantees no occurrence of
`sep` starts inside `a`, regardless of what follows `a`. -/
def SepMiss (sep a : List Char) : Prop :=
  ∀ i < a.length, ∃ j < sep.length, i + j < a.length ∧ sep.getD j ' ' ≠ a.getD (i + j) ' '

instance (sep a : List Char) : Decidable (SepMiss sep a) := by
  unfold SepMiss; infer_instance

theorem sepMiss_nil (sep : List Char) : SepMiss sep [] := by
  intro i hi; simp at hi

theorem sepMiss_of_head {sh : Char} {st a : List Char}
    (h : ∀ c ∈ a, c ≠ sh) : SepMiss (sh :: st) a := by
  intro i hi
  refine ⟨0, by simp, by omega, ?_⟩
  have hmem : a.getD (i + 0) ' ' ∈ a := by
    rw [List.getD_eq_getElem a ' ' (by omega)]
    exact List.getElem_mem (by omega)
  intro heq
  exact h _ hmem (by simpa using heq.symm)

theorem sepMiss_append {sep a b : List Char}
    (ha : SepMiss sep a) (hb : SepMiss sep b) : SepMiss sep (a ++ b) := by
  intro i hi
  rcases Nat.lt_or_ge i a.length with hia | hia
  · obtain ⟨j, hj, hij, hne⟩ := ha i hia
    refine ⟨j, hj, by simp; omega, ?_⟩
    rwa [List.getD_append _ _ _ _ (by omega)]
  · obtain ⟨j, hj, hij, hne⟩ := hb (i - a.length) (by simp at hi; omega)
    refine ⟨j, hj, by simp; omega, ?_⟩
    have : a.length + ((i - a.length) + j) = i + j := by omega
    rw [← this, List.getD_append_right _ _ _ _ (by omega)]
    simpa [Nat.add_sub_cancel_left] using hne

/-- No occurrence of `sep` starts inside `a`, whatever continuation is
appended. -/
theorem sepMiss_no_prefix_at {sep a : List Char} (h : SepMiss sep a) :
    ∀ i < a.length, ∀ s, sep.isPrefixOf (a.drop i ++ s) = false := by
  intro i hi s
  by_contra hcon
  have htrue : sep.isPrefixOf (a.drop i ++ s) = true := by
    cases hb : sep.isPrefixOf (a.drop i ++ s) with
    | false => exact absurd hb hcon
    | true => rfl
  obtain ⟨t, ht⟩ := exists_of_isPrefixOf htrue
  obtain ⟨j, hj, hij, hne⟩ := h i hi
  apply hne
  have hdroplen : j < (a.drop i).length := by simp; omega
  have h1 : (a.drop i ++ s).getD j ' ' = a.getD (i + j) ' ' := by
    rw [List.getD_append _ _ _ _ hdroplen]
    rw [List.getD_eq_getElem _ _ hdroplen, List.getD_eq_getElem _ _ (by omega)]
    simp [List.getElem_drop]
  have h2 : (sep ++ t).getD j ' ' = sep.getD j ' ' := List.getD_append _ _ _ _ hj
  rw [← h1, ht, h2]

/-! ### Structure of `pySplit` on strings built around separators -/

theorem pySplit_eq (sh : Char) (st s : List Char) :
    pySplit (sh :: st) s = pySplitGo sh st (s.length + 1) [] s := rfl

theorem pySplitGo_nil_step (sh : Char) (st : List Char) (f : Nat) (acc : List Char) :
    pySplitGo sh st (f + 1) acc [] = [acc.reverse] := by
  simp [pySplitGo, List.isPrefixOf]

theorem pySplitGo_cons_step {sh : Char} {st : List Char} (f : Nat) (acc : List Char)
    {c : Char} {rest : List Char} (hp : (sh :: st).isPrefixOf (c :: rest) = false) :
    pySplitGo sh st (f + 1) acc (c :: rest) = pySplitGo sh st f (c :: acc) rest := by
  simp [pySplitGo, hp]

theorem pySplitGo_match_step (sh : Char) (st : List Char) (f : Nat) (acc t : List Char) :
    pySplitGo sh st (f + 1) acc ((sh :: st) ++ t) = acc.reverse :: pySplitGo sh st f [] t := by
  have hp := isPrefixOf_self_append (sh :: st) t
  have hdrop : ((sh :: st) ++ t).drop (st.length + 1) = t := by
    have hl : (sh :: st).length = st.length + 1 := by simp
    rw [← hl, List.drop_left]
  simp [pySplitGo, hp, hdrop]

theorem sepMiss_tail {sh : Char} {st : List Char} {c : Char} {a : List Char}
    (h : SepMiss (sh :: st) (c :: a)) : SepMiss (sh :: st) a := by
  intro i hi
  obtain ⟨j, hj, hij, hne⟩ := h (i + 1) (by simp only [List.length_cons]; omega)
  simp only [List.length_cons] at hij
  refine ⟨j, hj, by omega, ?_⟩
  have heq : (c :: a).getD (i + 1 + j) ' ' = a.getD (i + j) ' ' := by
    have hidx : i + 1 + j = (i + j) + 1 := by omega
    rw [hidx]; rfl
  rwa [heq] at hne

theorem pySplitGo_fuel {sh : Char} {st : List Char} :
    ∀ f f' acc s, s.length < f → s.length < f' →
      pySplitGo sh st f acc s = pySplitGo sh st f' acc s := by
  intro f
  induction f with
  | zero => intro f' acc s h; omega
  | succ f ih =>
    intro f' acc s h h'
    cases f' with
    | zero => omega
    | succ f' =>
      by_cases hp : (sh :: st).isPrefixOf s = true
      · obtain ⟨t, rfl⟩ := exists_of_isPrefixOf hp
        rw [pySplitGo_match_step, pySplitGo_match_step]
        congr 1
        have hlt : t.length < f := by simp at h; omega
        have hlt' : t.length < f' := by simp at h'; omega
        exact ih f' [] t hlt hlt'
      · have hp' : (sh :: st).isPrefixOf s = false := by
          cases hb : (sh :: st).isPrefixOf s with
          | false => rfl
          | true => exact absurd hb hp
        cases s with
        | nil => rw [pySplitGo_nil_step, pySplitGo_nil_step]
        | cons c rest =>
          rw [pySplitGo_cons_step f acc hp', pySplitGo_cons_step f' acc hp']
          exact ih f' (c :: acc) rest (by simp at h; omega) (by simp at h'; omega)

theorem pySplitGo_append_sep {sh : Char} {st : List Char} :
    ∀ a f acc b, SepMiss (sh :: st) a →
      a.length + st.length + b.length + 1 < f →
      pySplitGo sh st f acc (a ++ (sh :: st) ++ b) =
        (acc.reverse ++ a) :: pySplitGo sh st (b.length + 1) [] b := by
  intro a
  induction a with
  | nil =>
    intro f acc b _ hf
    cases f with
    | zero => omega
    | succ f =>
      simp only [List.nil_append, List.append_nil]
      rw [pySplitGo_match_step]
      congr 1
      exact pySplitGo_fuel f (b.length + 1) [] b (by omega) (by omega)
  | cons c a' ih =>
    intro f acc b hmiss hf
    cases f with
    | zero => omega
    | succ f =>
      have hshape : (c :: a') ++ (sh :: st) ++ b = c :: (a' ++ (sh :: st) ++ b) := by simp
      rw [hshape]
      have hp : (sh :: st).isPrefixOf (c :: (a' ++ (sh :: st) ++ b)) = false := by
        have := sepMiss_no_prefix_at hmiss 0 (by simp) ((sh :: st) ++ b)
        simpa using this
      rw [pySplitGo_cons_step f acc hp]
      rw [ih f (c :: acc) b (sepMiss_tail hmiss) (by simp at hf; omega)]
      simp

theorem pySplitGo_no_sep {sh : Char} {st : List Char} :
    ∀ a f acc, SepMiss (sh :: st) a → a.length < f →
      pySplitGo sh st f acc a = [acc.reverse ++ a] := by
  intro a
  induction a with
  | nil =>
    intro f acc _ hf
    cases f with
    | zero => omega
    | succ f => rw [pySplitGo_nil_step]; simp
  | cons c a' ih =>
    intro f acc hmiss hf
    cases f with
    | zero => omega
    | succ f =>
      have hp : (sh :: st).isPrefixOf (c :: a') = false := by
        have := sepMiss_no_prefix_at hmiss 0 (by simp) []
        simpa using this
      rw [pySplitGo_cons_step f acc hp]
      rw [ih f (c :: acc) (sepMiss_tail hmiss) (by simp at hf; omega)]
      simp

/-- `pySplit` peels off a leading block `a` containing no separator
occurrence, followed by one separator. -/
theorem pySplit_append {sh : Char} {st a b : List Char} (h : SepMiss (sh :: st) a) :
    pySplit (sh :: st) (a ++ (sh :: st) ++ b) = a :: pySplit (sh :: st) b := by
  rw [pySplit_eq, pySplit_eq]
  rw [pySplitGo_append_sep a ((a ++ (sh :: st) ++ b).length + 1) [] b h (by simp; omega)]
  simp

/-- `pySplit` of a block containing no separator occurrence. -/
theorem pySplit_no_sep {sh : Char} {st a : List Char} (h : SepMiss (sh :: st) a) :
    pySplit (sh :: st) a = [a] := by
  rw [pySplit_eq]
  rw [pySplitGo_no_sep a (a.length + 1) [] h (by omega)]
  simp

/-! ### The delimited-text codec (`formatted_text_encode` / `formatted_text_decode`)

Translated from `address_book_encoding.py`, lines 245-301.  The encoder
iterates the canonical collection; for each contact it appends a blank
line, the name line, and one `key: value` line per field (insertion order
`address`, `phone_number`).  The decoder splits on the blank-line
separator, skips empty fragments, and reads lines 1, 2, 3 of each
fragment by position; a missing index models Python's `IndexError`
(decode returns `none`). -/

def ftContactText (c : Contact) : List Char :=
  '\n' :: (c.name ++ '\n' :: ("address: ".toList ++ c.address ++
    '\n' :: ("phone_number: ".toList ++ c.phone_number ++ ['\n'])))

def formatted_text_encode (contact_details : List Contact) : List Char × Nat :=
  let t := (contact_details.map ftContactText).flatten
  (t, t.length)

def ftDecodeFrags : List (List Char) → Option (List Contact)
  | [] => some []
  | f :: fs =>
    if f = [] then ftDecodeFrags fs
    else
      match (pySplit ['\n'] f)[1]?, (pySplit ['\n'] f)[2]?, (pySplit ['\n'] f)[3]? with
      | some nm, some al, some pl =>
        (ftDecodeFrags fs).map (fun rest =>
          ⟨nm, (pySplit [':', ' '] al).getLastD [], (pySplit [':', ' '] pl).getLastD []⟩ :: rest)
      | _, _, _ => none

def formatted_text_decode (formatted_text_str : List Char) : Option (List Contact × Nat) :=
  (ftDecodeFrags (pySplit ['\n', '\n'] formatted_text_str)).map (fun l => (l, l.length))

/-- C1: the delimited-text round trip fails for collections with two
contacts: decoding the encoding of `[A, B]` succeeds but yields a second
contact whose name is the literal address line `"address: 3"`, so the
result differs from the input (for three or more contacts decode raises
`IndexError`, modelled as `none`). -/
theorem claim_C1_formatted_text_round_trip_fails :
    formatted_text_decode (formatted_text_encode
        [⟨"A".toList, "1".toList, "2".toList⟩, ⟨"B".toList, "3".toList, "4".toList⟩]).1 =
      some ([⟨"A".toList, "1".toList, "2".toList⟩,
             ⟨"address: 3".toList, "4".toList, "".toList⟩], 2) ∧
    ([⟨"A".toList, "1".toList, "2".toList⟩,
      ⟨"address: 3".toList, "4".toList, "".toList⟩] : List Contact) ≠
      [⟨"A".toList, "1".toList, "2".toList⟩, ⟨"B".toList, "3".toList, "4".toList⟩] := by
  constructor
  · rfl
  · decide

/-! ### The HTML table codec (`html_table_encode` / `html_table_decode`)

Translated from `address_book_encoding.py`, lines 163-226.  The encoder
emits a fixed header (inline style block plus a header row of `th`
cells), then one `<tr>` of three `<td>` cells per contact, and closes the
table.  No escaping is applied to field values.

The decoder parses the document with lxml, collects every `tr` element,
skips rows with no `td` cells, and reads the text of cells 0, 1, 2; a
missing cell models Python's `IndexError` (decode returns `none`), and an
empty cell's text is `None` (modelled as `none`). -/

/-- A decoded contact: lxml cell texts are `str` or `None`, so decoded
fields are `Option (List Char)`. -/
structure DContact where
  name : Option (List Char)
  address : Option (List Char)
  phone_number : Option (List Char)
deriving DecidableEq, Repr

/-- The embedding of an encoder-side contact into decoder-side values. -/
def contactToD (c : Contact) : DContact :=
  ⟨some c.name, some c.address, some c.phone_number⟩

/-- lxml `.text` of an element whose content is the character data `v`:
`None` when empty, the text otherwise. -/
def optOf (v : List Char) : Option (List Char) :=
  if v = [] then none else some v

/-- The cell run of one table row: `<td>{0}</td><td>{1}</td><td>{2}</td>`. -/
def cellsStr3 (n a p : List Char) : List Char :=
  "<td>".toList ++ n ++ "</td><td>".toList ++ a ++ "</td><td>".toList ++ p ++ "</td>".toList

/-- One table row of the encoder:
`'<tr><td>{0}</td><td>{1}</td><td>{2}</td></tr>'.format(name, address, phone_number)`. -/
def rowString (c : Contact) : List Char :=
  "<tr>".toList ++ cellsStr3 c.name c.address c.phone_number ++ "</tr>".toList

/-- The fixed text the encoder emits before the contact rows (triple-quoted
literal in the source, with its leading newline and indentation). -/
def htmlHeader : List Char :=
  ("\n    <table>\n    <style>table, th, td \x7bborder: 1px solid black; " ++
   "border-collapse: collapse; padding: 10px\x7d</style>\n    " ++
   "<tr><th>Name</th><th>Address</th><th>Phone Number</th></tr>\n    ").toList

def html_table_encode (contact_details : List Contact) : List Char × Nat :=
  let t := htmlHeader ++ (contact_details.map rowString).flatten ++ "</table>".toList
  (t, t.length)

/-- Text content of one `td` cell fragment (the part before `</td>`),
as lxml exposes it: `None` for an empty cell. -/
def cellText (cell : List Char) : Option (List Char) :=
  optOf ((pySplit "</td>".toList cell).headD [])

/-- The `td` texts of one `tr` fragment (the part before `</tr>`,
cut at each `<td>`). -/
def rowCells (frag : List Char) : List (Option (List Char)) :=
  ((pySplit "<td>".toList ((pySplit "</tr>".toList frag).headD [])).tail).map cellText

/-- Modelled from the library: `lxml.etree.parse` + `findall('.//tr')` +
`findall('.//td')` + `.text` on documents shaped like the encoder's
output (no entities, comments or markup inside cell text).  Rows are the
fragments after each `<tr>`; cells are the fragments after each `<td>`
within the row, cut at the closing tags. -/
def lxmlTableRows (s : List Char) : List (List (Option (List Char))) :=
  ((pySplit "<tr>".toList s).tail).map rowCells

/-- The decoder's loop over the parsed rows: skip rows with no data cells,
then read cells 0, 1, 2 (IndexError for shorter rows modelled as `none`). -/
def htmlDecodeRows : List (List (Option (List Char))) → Option (List DContact)
  | [] => some []
  | r :: rs =>
    if r = [] then htmlDecodeRows rs
    else
      match r[0]?, r[1]?, r[2]? with
      | some nm, some ad, some ph =>
        (htmlDecodeRows rs).map (fun rest => ⟨nm, ad, ph⟩ :: rest)
      | _, _, _ => none

def html_table_decode (html_table_str : List Char) : Option (List DContact × Nat) :=
  (htmlDecodeRows (lxmlTableRows html_table_str)).map (fun l => (l, l.length))

/-! ### Grammar restrictions for the HTML round trip

Cell values that contain `<` break the markup structure (the source
applies no HTML escaping) and values containing `&` would be read back
entity-decoded by lxml, so the round-trip grammar excludes both. -/

/-- Text that carries no markup significance for the HTML parser. -/
def goodTxt (v : List Char) : Prop := ∀ c ∈ v, c ≠ '<' ∧ c ≠ '&'

/-- A field value the HTML codec round-trips: non-empty plain text
(an empty cell reads back as `None`). -/
def goodVal (v : List Char) : Prop := v ≠ [] ∧ goodTxt v

def goodContact (c : Contact) : Prop :=
  goodVal c.name ∧ goodVal c.address ∧ goodVal c.phone_number

instance (v : List Char) : Decidable (goodTxt v) := by unfold goodTxt; infer_instance

instance (v : List Char) : Decidable (goodVal v) := by unfold goodVal; infer_instance

instance (c : Contact) : Decidable (goodContact c) := by unfold goodContact; infer_instance

theorem sepMiss_of_head_getD {sep a : List Char} (hsep : sep ≠ [])
    (h : ∀ c ∈ a, c ≠ sep.getD 0 ' ') : SepMiss sep a := by
  intro i hi
  refine ⟨0, ?_, by omega, ?_⟩
  · cases sep with
    | nil => exact absurd rfl hsep
    | cons x xs => simp
  · have hmem : a.getD (i + 0) ' ' ∈ a := by
      rw [List.getD_eq_getElem a ' ' (by omega)]
      exact List.getElem_mem (by omega)
    intro heq
    exact h _ hmem heq.symm

theorem sepMiss_goodTxt {a : List Char} (ha : goodTxt a) (sep : List Char)
    (hsep : sep.getD 0 ' ' = '<') (hne : sep ≠ []) : SepMiss sep a :=
  sepMiss_of_head_getD hne (fun c hc => by rw [hsep]; exact (ha c hc).1)

theorem pySplit_append_of_ne {sep a b : List Char} (hsep : sep ≠ [])
    (h : SepMiss sep a) : pySplit sep (a ++ sep ++ b) = a :: pySplit sep b := by
  cases sep with
  | nil => exact absurd rfl hsep
  | cons sh st => exact pySplit_append h

theorem pySplit_no_sep_of_ne {sep a : List Char} (hsep : sep ≠ [])
    (h : SepMiss sep a) : pySplit sep a = [a] := by
  cases sep with
  | nil => exact absurd rfl hsep
  | cons sh st => exact pySplit_no_sep h

theorem optOf_of_ne {v : List Char} (h : v ≠ []) : optOf v = some v := by
  simp [optOf, h]

/-! ### Row and cell structure of encoder-shaped documents -/

theorem sepMiss_tr_chunks {n a p : List Char}
    (hn : goodTxt n) (ha : goodTxt a) (hp : goodTxt p) :
    SepMiss "<tr>".toList (cellsStr3 n a p ++ "</tr>".toList) := by
  have e : cellsStr3 n a p ++ "</tr>".toList =
      "<td>".toList ++ (n ++ ("</td><td>".toList ++ (a ++ ("</td><td>".toList ++
        (p ++ ("</td>".toList ++ "</tr>".toList)))))) := by
    simp [cellsStr3]
  rw [e]
  have h1 : SepMiss "<tr>".toList "<td>".toList := by decide
  have h2 : SepMiss "<tr>".toList "</td><td>".toList := by decide
  have h3 : SepMiss "<tr>".toList "</td>".toList := by decide
  have h4 : SepMiss "<tr>".toList "</tr>".toList := by decide
  have hvn := sepMiss_goodTxt hn "<tr>".toList (by decide) (by decide)
  have hva := sepMiss_goodTxt ha "<tr>".toList (by decide) (by decide)
  have hvp := sepMiss_goodTxt hp "<tr>".toList (by decide) (by decide)
  exact sepMiss_append h1 (sepMiss_append hvn (sepMiss_append h2 (sepMiss_append hva
    (sepMiss_append h2 (sepMiss_append hvp (sepMiss_append h3 h4))))))

theorem sepMiss_trclose_cells {n a p : List Char}
    (hn : goodTxt n) (ha : goodTxt a) (hp : goodTxt p) :
    SepMiss "</tr>".toList (cellsStr3 n a p) := by
  have e : cellsStr3 n a p =
      "<td>".toList ++ (n ++ ("</td><td>".toList ++ (a ++ ("</td><td>".toList ++
        (p ++ "</td>".toList))))) := by
    simp [cellsStr3]
  rw [e]
  have h1 : SepMiss "</tr>".toList "<td>".toList := by decide
  have h2 : SepMiss "</tr>".toList "</td><td>".toList := by decide
  have h3 : SepMiss "</tr>".toList "</td>".toList := by decide
  have hvn := sepMiss_goodTxt hn "</tr>".toList (by decide) (by decide)
  have hva := sepMiss_goodTxt ha "</tr>".toList (by decide) (by decide)
  have hvp := sepMiss_goodTxt hp "</tr>".toList (by decide) (by decide)
  exact sepMiss_append h1 (sepMiss_append hvn (sepMiss_append h2 (sepMiss_append hva
    (sepMiss_append h2 (sepMiss_append hvp h3)))))

theorem cellText_plain {v : List Char} (hv : goodTxt v) :
    cellText (v ++ "</td>".toList) = optOf v := by
  unfold cellText
  have hsplit : pySplit "</td>".toList (v ++ "</td>".toList ++ []) =
      v :: pySplit "</td>".toList [] := by
    exact pySplit_append_of_ne (by decide) (sepMiss_goodTxt hv "</td>".toList (by decide) (by decide))
  rw [List.append_nil] at hsplit
  rw [hsplit]
  rfl

/-- The cells of one encoder-shaped row fragment (the text between a
`<tr>` and the next one, or the end of the document). -/
theorem rowCells_cells {n a p : List Char} (suffix : List Char)
    (hn : goodTxt n) (ha : goodTxt a) (hp : goodTxt p) :
    rowCells (cellsStr3 n a p ++ "</tr>".toList ++ suffix) =
      [optOf n, optOf a, optOf p] := by
  unfold rowCells
  have h1 : pySplit "</tr>".toList (cellsStr3 n a p ++ "</tr>".toList ++ suffix) =
      cellsStr3 n a p :: pySplit "</tr>".toList suffix :=
    pySplit_append_of_ne (by decide) (sepMiss_trclose_cells hn ha hp)
  rw [h1]
  simp only [List.headD_cons]
  have e : cellsStr3 n a p =
      [] ++ "<td>".toList ++ ((n ++ "</td>".toList) ++ "<td>".toList ++
        ((a ++ "</td>".toList) ++ "<td>".toList ++ (p ++ "</td>".toList))) := by
    simp [cellsStr3]
  rw [e]
  have hfreeN : SepMiss "<td>".toList (n ++ "</td>".toList) :=
    sepMiss_append (sepMiss_goodTxt hn "<td>".toList (by decide) (by decide)) (by decide)
  have hfreeA : SepMiss "<td>".toList (a ++ "</td>".toList) :=
    sepMiss_append (sepMiss_goodTxt ha "<td>".toList (by decide) (by decide)) (by decide)
  have hfreeP : SepMiss "<td>".toList (p ++ "</td>".toList) :=
    sepMiss_append (sepMiss_goodTxt hp "<td>".toList (by decide) (by decide)) (by decide)
  rw [pySplit_append_of_ne (by decide) (sepMiss_nil _)]
  rw [pySplit_append_of_ne (by decide) hfreeN]
  rw [pySplit_append_of_ne (by decide) hfreeA]
  rw [pySplit_no_sep_of_ne (by decide) hfreeP]
  simp only [List.tail_cons, List.map_cons, List.map_nil]
  rw [cellText_plain hn, cellText_plain ha, cellText_plain hp]

/-- The decoder-side cell list produced for one encoded contact row. -/
def rowOf (c : Contact) : List (Option (List Char)) :=
  [optOf c.name, optOf c.address, optOf c.phone_number]

def goodTxtContact (c : Contact) : Prop :=
  goodTxt c.name ∧ goodTxt c.address ∧ goodTxt c.phone_number

instance (c : Contact) : Decidable (goodTxtContact c) := by
  unfold goodTxtContact; infer_instance

/-- Splitting an encoder-shaped document on `<tr>`: a separator-free
block `pre`, then one row per contact, then `</table>`. -/
theorem split_pre_rows :
    ∀ (l : List Contact), (∀ c ∈ l, goodTxtContact c) →
    ∀ (pre : List Char) (R : List (Option (List Char))),
      SepMiss "<tr>".toList pre →
      rowCells pre = R → rowCells (pre ++ "</table>".toList) = R →
      (pySplit "<tr>".toList
          (pre ++ (l.map rowString).flatten ++ "</table>".toList)).map rowCells =
        R :: l.map rowOf := by
  intro l
  induction l with
  | nil =>
    intro _ pre R hpre _ hR2
    simp only [List.map_nil, List.flatten_nil, List.append_nil]
    rw [pySplit_no_sep_of_ne (by decide) (sepMiss_append hpre (by decide))]
    simp only [List.map_cons, List.map_nil]
    rw [hR2]
  | cons c l' ih =>
    intro hgood pre R hpre hR1 hR2
    have hc : goodTxtContact c := hgood c (by simp)
    have e : pre ++ ((c :: l').map rowString).flatten ++ "</table>".toList =
        pre ++ "<tr>".toList ++
          ((cellsStr3 c.name c.address c.phone_number ++ "</tr>".toList) ++
            (l'.map rowString).flatten ++ "</table>".toList) := by
      simp [rowString]
    rw [e, pySplit_append_of_ne (by decide) hpre]
    have hcellsfree := sepMiss_tr_chunks hc.1 hc.2.1 hc.2.2
    have hrow1 : rowCells (cellsStr3 c.name c.address c.phone_number ++ "</tr>".toList) =
        rowOf c := by
      have h0 := rowCells_cells [] hc.1 hc.2.1 hc.2.2
      rw [List.append_nil] at h0
      exact h0
    have hrow2 : rowCells ((cellsStr3 c.name c.address c.phone_number ++ "</tr>".toList) ++
        "</table>".toList) = rowOf c :=
      rowCells_cells "</table>".toList hc.1 hc.2.1 hc.2.2
    rw [List.map_cons, hR1,
      ih (fun x hx => hgood x (by simp [hx])) _ _ hcellsfree hrow1 hrow2]
    simp

def hdrPre : List Char :=
  ("\n    <table>\n    <style>table, th, td \x7bborder: 1px solid black; " ++
   "border-collapse: collapse; padding: 10px\x7d</style>\n    ").toList

def hdrRowTail : List Char :=
  "<th>Name</th><th>Address</th><th>Phone Number</th></tr>\n    ".toList

set_option maxRecDepth 4000 in
theorem htmlHeader_decomp : htmlHeader = hdrPre ++ "<tr>".toList ++ hdrRowTail := by decide

set_option maxRecDepth 4000 in
/-- Parsing the encoder's output yields the header row (no data cells)
followed by one three-cell row per contact. -/
theorem lxmlTableRows_encode (l : List Contact) (h : ∀ c ∈ l, goodTxtContact c) :
    lxmlTableRows (html_table_encode l).1 = [] :: l.map rowOf := by
  unfold lxmlTableRows html_table_encode
  have e : htmlHeader ++ (l.map rowString).flatten ++ "</table>".toList =
      hdrPre ++ "<tr>".toList ++
        (hdrRowTail ++ (l.map rowString).flatten ++ "</table>".toList) := by
    rw [htmlHeader_decomp]; simp
  simp only [e]
  rw [pySplit_append_of_ne (by decide) (by decide)]
  simp only [List.tail_cons]
  exact split_pre_rows l h hdrRowTail [] (by decide) (by decide) (by decide)

theorem htmlDecodeRows_skip_header (rs : List (List (Option (List Char)))) :
    htmlDecodeRows ([] :: rs) = htmlDecodeRows rs := by
  simp [htmlDecodeRows]

theorem htmlDecodeRows_map_rowOf : ∀ l : List Contact,
    htmlDecodeRows (l.map rowOf) =
      some (l.map fun c => ⟨optOf c.name, optOf c.address, optOf c.phone_number⟩) := by
  intro l
  induction l with
  | nil => rfl
  | cons c l' ih =>
    simp only [List.map_cons, htmlDecodeRows, rowOf]
    simp [ih]

/-- C2: rows with fewer than three data cells are not skipped: a row with
one or two `td` cells makes `html_table_decode` fail with `IndexError`
(modelled as `none`) instead of returning the remaining contacts. -/
theorem claim_C2_short_rows_crash :
    html_table_decode "<table><tr><td>A</td><td>B</td></tr></table>".toList = none ∧
    html_table_decode "<table><tr><td>only</td></tr></table>".toList = none := by
  constructor
  · rfl
  · rfl

set_option maxRecDepth 8000 in
/-- C6 (counterexample): the HTML round trip does not preserve the empty
string — an empty address encodes as `<td></td>`, whose text reads back
as `None`, so decode of encode differs from the embedded input. -/
theorem claim_C6_html_round_trip_not_id :
    html_table_decode (html_table_encode [⟨"A".toList, "".toList, "1".toList⟩]).1 ≠
      some ([⟨"A".toList, "".toList, "1".toList⟩].map contactToD, 1) := by
  decide

/-- C6 (amended): the HTML round trip holds for every canonical collection
whose field values are non-empty and free of markup-significant
characters (`<`, `&`); empty fields decode as `None`, not `""`. -/
theorem claim_C6_amended_html_round_trip (l : List Contact)
    (h : ∀ c ∈ l, goodContact c) :
    html_table_decode (html_table_encode l).1 = some (l.map contactToD, l.length) := by
  unfold html_table_decode
  rw [lxmlTableRows_encode l
    (fun c hc => ⟨((h c hc).1).2, ((h c hc).2.1).2, ((h c hc).2.2).2⟩)]
  rw [htmlDecodeRows_skip_header, htmlDecodeRows_map_rowOf]
  have e : (l.map fun c =>
      (⟨optOf c.name, optOf c.address, optOf c.phone_number⟩ : DContact)) =
      l.map contactToD := by
    apply List.map_congr_left
    intro c hc
    obtain ⟨⟨hn1, _⟩, ⟨ha1, _⟩, ⟨hp1, _⟩⟩ := h c hc
    simp [contactToD, optOf_of_ne hn1, optOf_of_ne ha1, optOf_of_ne hp1]
  rw [e]
  simp

/-- C6 (witness): the amended round trip at a concrete collection. -/
theorem claim_C6_amended_html_round_trip_witness :
    (∀ c ∈ [(⟨"Alice".toList, "1 Main St".toList, "555-1111".toList⟩ : Contact)],
      goodContact c) ∧
    html_table_decode (html_table_encode
        [⟨"Alice".toList, "1 Main St".toList, "555-1111".toList⟩]).1 =
      some ([⟨"Alice".toList, "1 Main St".toList, "555-1111".toList⟩].map contactToD, 1) :=
  ⟨by decide, claim_C6_amended_html_round_trip _ (by decide)⟩

theorem htmlDecodeRows_single (x y z : Option (List Char)) :
    htmlDecodeRows [[x, y, z]] = some [⟨x, y, z⟩] := by
  simp [htmlDecodeRows]

/-- C9: a document with one header row (no `td` cells) followed by one
data row of three `td` cells decodes to exactly one contact, its fields
taken from the data cells in the order name, address, phone_number. -/
theorem claim_C9_header_row_skipped (n a p : List Char)
    (hn : goodTxt n) (ha : goodTxt a) (hp : goodTxt p) :
    html_table_decode
      ("<table><tr><th>Name</th><th>Address</th><th>Phone Number</th></tr><tr>".toList
        ++ cellsStr3 n a p ++ "</tr></table>".toList) =
      some ([⟨optOf n, optOf a, optOf p⟩], 1) := by
  have hlit :
      "<table><tr><th>Name</th><th>Address</th><th>Phone Number</th></tr><tr>".toList =
      "<table>".toList ++ "<tr>".toList ++
        "<th>Name</th><th>Address</th><th>Phone Number</th></tr>".toList ++
        "<tr>".toList := by decide
  have hlit2 : "</tr></table>".toList = "</tr>".toList ++ "</table>".toList := by decide
  have e :
      "<table><tr><th>Name</th><th>Address</th><th>Phone Number</th></tr><tr>".toList
        ++ cellsStr3 n a p ++ "</tr></table>".toList =
      "<table>".toList ++ "<tr>".toList ++
        ("<th>Name</th><th>Address</th><th>Phone Number</th></tr>".toList ++
          "<tr>".toList ++ ((cellsStr3 n a p ++ "</tr>".toList) ++ "</table>".toList)) := by
    rw [hlit, hlit2]; simp
  unfold html_table_decode lxmlTableRows
  rw [e, pySplit_append_of_ne (by decide) (by decide),
    pySplit_append_of_ne (by decide) (by decide),
    pySplit_no_sep_of_ne (by decide)
      (sepMiss_append (sepMiss_tr_chunks hn ha hp) (by decide))]
  simp only [List.tail_cons, List.map_cons, List.map_nil]
  rw [rowCells_cells "</table>".toList hn ha hp]
  have hhdr : rowCells "<th>Name</th><th>Address</th><th>Phone Number</th></tr>".toList =
      [] := by decide
  rw [hhdr, htmlDecodeRows_skip_header, htmlDecodeRows_single]
  rfl

/-- C9 (witness): the header-skipping behaviour at a concrete document. -/
theorem claim_C9_header_row_skipped_witness :
    goodTxt "Bob".toList ∧ goodTxt "2 High St".toList ∧ goodTxt "555-2222".toList ∧
    html_table_decode
      ("<table><tr><th>Name</th><th>Address</th><th>Phone Number</th></tr><tr>".toList
        ++ cellsStr3 "Bob".toList "2 High St".toList "555-2222".toList
        ++ "</tr></table>".toList) =
      some ([⟨optOf "Bob".toList, optOf "2 High St".toList, optOf "555-2222".toList⟩], 1) :=
  ⟨by decide, by decide, by decide,
    claim_C9_header_row_skipped _ _ _ (by decide) (by decide) (by decide)⟩

/-- C10: a data cell with no text content (such as `<td></td>`) decodes
to `None` rather than the empty string: here the address field of the
decoded contact is `none`. -/
theorem claim_C10_empty_cell_decodes_none (n p : List Char)
    (hn : goodTxt n) (hp : goodTxt p) :
    html_table_decode ("<table><tr>".toList ++ cellsStr3 n [] p
        ++ "</tr></table>".toList) =
      some ([⟨optOf n, none, optOf p⟩], 1) := by
  have hlit : "<table><tr>".toList = "<table>".toList ++ "<tr>".toList := by decide
  have hlit2 : "</tr></table>".toList = "</tr>".toList ++ "</table>".toList := by decide
  have e : "<table><tr>".toList ++ cellsStr3 n [] p ++ "</tr></table>".toList =
      "<table>".toList ++ "<tr>".toList ++
        ((cellsStr3 n [] p ++ "</tr>".toList) ++ "</table>".toList) := by
    rw [hlit, hlit2]; simp
  unfold html_table_decode lxmlTableRows
  have hnilTxt : goodTxt ([] : List Char) := by intro c hc; cases hc
  rw [e, pySplit_append_of_ne (by decide) (by decide),
    pySplit_no_sep_of_ne (by decide)
      (sepMiss_append (sepMiss_tr_chunks hn hnilTxt hp) (by decide))]
  simp only [List.tail_cons, List.map_cons, List.map_nil]
  rw [rowCells_cells "</table>".toList hn hnilTxt hp]
  have hempty : optOf ([] : List Char) = none := rfl
  rw [hempty, htmlDecodeRows_single]
  rfl

/-- C10 (witness): the empty-cell behaviour at a concrete document. -/
theorem claim_C10_empty_cell_decodes_none_witness :
    goodTxt "N".toList ∧ goodTxt "P".toList ∧
    html_table_decode ("<table><tr>".toList ++ cellsStr3 "N".toList [] "P".toList
        ++ "</tr></table>".toList) =
      some ([⟨optOf "N".toList, none, optOf "P".toList⟩], 1) :=
  ⟨by decide, by decide,
    claim_C10_empty_cell_decodes_none _ _ (by decide) (by decide)⟩

/-! ### The structured interchange codec (`json_encode` / `json_decode`)

`json_encode` is `(json.dumps(obj), len(obj))` and `json_decode` is
`(json.loads(s), len(s))` (lines 75-99 of the source).  The library calls
are modelled over the value fragment the address book exchanges: strings,
arrays and objects.  `json.dumps` is modelled on the canonical collection
shape with CPython's default `ensure_ascii` escaping (including surrogate
pairs for astral characters); `json.loads` is modelled as a general
recursive-descent parser for that fragment with strict-mode strings.
Parse failure (`json.JSONDecodeError`) is modelled as `none`. -/

def lbrace : Char := Char.ofNat 123

def rbrace : Char := Char.ofNat 125

/-- A parsed Python value in the fragment the codecs exchange. -/
inductive JVal where
  | jstr : List Char → JVal
  | jarr : List JVal → JVal
  | jobj : List (List Char × JVal) → JVal

def hexDig (n : Nat) : Char :=
  if n < 10 then Char.ofNat (48 + n) else Char.ofNat (87 + n)

def hex4 (n : Nat) : List Char :=
  [hexDig (n / 4096 % 16), hexDig (n / 256 % 16), hexDig (n / 16 % 16), hexDig (n % 16)]

/-- CPython `ensure_ascii` escaping of one character
(`py_encode_basestring_ascii`): short escapes for the common controls,
`\uXXXX` for other non-printable or non-ASCII code points, surrogate
pairs above the basic multilingual plane. -/
def escChar (c : Char) : List Char :=
  if c = '"' then ['\\', '"']
  else if c = '\\' then ['\\', '\\']
  else if c.toNat = 8 then ['\\', 'b']
  else if c.toNat = 9 then ['\\', 't']
  else if c.toNat = 10 then ['\\', 'n']
  else if c.toNat = 12 then ['\\', 'f']
  else if c.toNat = 13 then ['\\', 'r']
  else if c.toNat < 32 then '\\' :: 'u' :: hex4 c.toNat
  else if c.toNat < 127 then [c]
  else if c.toNat < 65536 then '\\' :: 'u' :: hex4 c.toNat
  else '\\' :: 'u' :: hex4 (55296 + (c.toNat - 65536) / 1024) ++
       '\\' :: 'u' :: hex4 (56320 + (c.toNat - 65536) % 1024)

def escString : List Char → List Char
  | [] => []
  | c :: cs => escChar c ++ escString cs

/-- `json.dumps` of one canonical contact:
`{"<name>": {"address": "<a>", "phone_number": "<p>"}}`. -/
def jsonContact (c : Contact) : List Char :=
  lbrace :: '"' :: escString c.name ++ '"' :: ':' :: ' ' ::
    lbrace :: '"' :: escString "address".toList ++ '"' :: ':' :: ' ' :: '"' ::
      escString c.address ++ '"' :: ',' :: ' ' :: '"' ::
    escString "phone_number".toList ++ '"' :: ':' :: ' ' :: '"' ::
      escString c.phone_number ++ ['"', rbrace, rbrace]

def jsonItems : List Contact → List Char
  | [] => []
  | [c] => jsonContact c
  | c :: l => jsonContact c ++ ',' :: ' ' :: jsonItems l

/-- `json.dumps` of the canonical collection (default separators). -/
def jsonDumpsColl (l : List Contact) : List Char :=
  '[' :: jsonItems l ++ [']']

def json_encode (obj : List Contact) : List Char × Nat :=
  (jsonDumpsColl obj, obj.length)

/-- The canonical collection as the Python value `json.loads` returns. -/
def jsonOfContacts (l : List Contact) : JVal :=
  .jarr (l.map fun c => .jobj [(c.name, .jobj
    [("address".toList, .jstr c.address),
     ("phone_number".toList, .jstr c.phone_number)])])

def skipWs : List Char → List Char
  | [] => []
  | c :: cs => if c = ' ' ∨ c = '\t' ∨ c = '\n' ∨ c = '\r' then skipWs cs else c :: cs

def hexVal (c : Char) : Option Nat :=
  if 48 ≤ c.toNat ∧ c.toNat ≤ 57 then some (c.toNat - 48)
  else if 97 ≤ c.toNat ∧ c.toNat ≤ 102 then some (c.toNat - 87)
  else if 65 ≤ c.toNat ∧ c.toNat ≤ 70 then some (c.toNat - 55)
  else none

def hex4Val (h1 h2 h3 h4 : Char) : Option Nat :=
  match hexVal h1, hexVal h2, hexVal h3, hexVal h4 with
  | some a, some b, some c, some d => some (a * 4096 + b * 256 + c * 16 + d)
  | _, _, _, _ => none

def escSimple (e : Char) : Option Char :=
  if e = '"' then some '"'
  else if e = '\\' then some '\\'
  else if e = '/' then some '/'
  else if e = 'b' then some (Char.ofNat 8)
  else if e = 'f' then some (Char.ofNat 12)
  else if e = 'n' then some '\n'
  else if e = 'r' then some '\r'
  else if e = 't' then some '\t'
  else none

/-- Decode one backslash escape (the part after the backslash): CPython
`py_scanstring`'s escape handling, pairing `\uXXXX` surrogate escapes.
Escape sequences denoting unpaired surrogates (which CPython keeps as
lone surrogate code units) produce values outside Lean's `Char` type and
are modelled as parse failure; valid inputs never contain them. -/
def decodeEsc : List Char → Option (Char × List Char)
  | [] => none
  | e :: cs2 =>
    if e = 'u' then
      match cs2 with
      | h1 :: h2 :: h3 :: h4 :: cs3 =>
        match hex4Val h1 h2 h3 h4 with
        | none => none
        | some v1 =>
          if 55296 ≤ v1 ∧ v1 ≤ 56319 then
            match cs3 with
            | b1 :: u1 :: g1 :: g2 :: g3 :: g4 :: cs4 =>
              if b1 = '\\' ∧ u1 = 'u' then
                match hex4Val g1 g2 g3 g4 with
                | some v2 =>
                  if 56320 ≤ v2 ∧ v2 ≤ 57343 then
                    some (Char.ofNat (65536 + (v1 - 55296) * 1024 + (v2 - 56320)), cs4)
                  else none
                | none => none
              else none
            | _ => none
          else if 56320 ≤ v1 ∧ v1 ≤ 57343 then none
          else some (Char.ofNat v1, cs3)
      | _ => none
    else
      match escSimple e with
      | some d => some (d, cs2)
      | none => none

/-- CPython `py_scanstring` (strict mode), after the opening quote:
unescape until the closing quote.  The fuel argument makes the recursion
structural; every call site supplies at least `input length + 1`. -/
def parseStrBody : Nat → List Char → Option (List Char × List Char)
  | 0, _ => none
  | _ + 1, [] => none
  | f + 1, c :: cs =>
    if c = '"' then some ([], cs)
    else if c = '\\' then
      match decodeEsc cs with
      | some (d, cs2) => (parseStrBody f cs2).map (fun r => (d :: r.1, r.2))
      | none => none
    else if c.toNat < 32 then none
    else (parseStrBody f cs).map (fun r => (c :: r.1, r.2))

mutual

def parseVal : Nat → List Char → Option (JVal × List Char)
  | 0, _ => none
  | f + 1, cs =>
    match skipWs cs with
    | [] => none
    | c :: rest =>
      if c = '"' then
        (parseStrBody (rest.length + 1) rest).map (fun r => (JVal.jstr r.1, r.2))
      else if c = '[' then
        match skipWs rest with
        | d :: r2 =>
          if d = ']' then some (JVal.jarr [], r2)
          else (parseItems f (d :: r2)).map (fun r => (JVal.jarr r.1, r.2))
        | [] => (parseItems f []).map (fun r => (JVal.jarr r.1, r.2))
      else if c = lbrace then
        match skipWs rest with
        | d :: r3 =>
          if d = rbrace then some (JVal.jobj [], r3)
          else (parsePairs f (d :: r3)).map (fun r => (JVal.jobj r.1, r.2))
        | [] => none
      else none

def parseItems : Nat → List Char → Option (List JVal × List Char)
  | 0, _ => none
  | f + 1, cs =>
    match parseVal f cs with
    | none => none
    | some (v, r) =>
      match skipWs r with
      | ',' :: r2 => (parseItems f r2).map (fun p => (v :: p.1, p.2))
      | ']' :: r2 => some ([v], r2)
      | _ => none

def parsePairs : Nat → List Char → Option (List (List Char × JVal) × List Char)
  | 0, _ => none
  | f + 1, cs =>
    match skipWs cs with
    | c :: rest =>
      if c = '"' then
        match parseStrBody (rest.length + 1) rest with
        | none => none
        | some (k, r1) =>
          match skipWs r1 with
          | ':' :: r2 =>
            match parseVal f r2 with
            | none => none
            | some (v, r3) =>
              match skipWs r3 with
              | ',' :: r4 => (parsePairs f r4).map (fun p => ((k, v) :: p.1, p.2))
              | d :: r4 => if d = rbrace then some ([(k, v)], r4) else none
              | [] => none
          | _ => none
      else none
    | [] => none

end

/-- `json.loads`: parse one value and require only whitespace after it. -/
def jsonLoads (s : List Char) : Option JVal :=
  match parseVal (s.length + 1) s with
  | some (v, r) => if skipWs r = [] then some v else none
  | none => none

def json_decode (json_string : List Char) : Option (JVal × Nat) :=
  (jsonLoads json_string).map (fun v => (v, json_string.length))

/-! ### The escape round trip for strings -/

theorem char_valid_nat (c : Char) :
    c.toNat < 55296 ∨ (57344 ≤ c.toNat ∧ c.toNat < 1114112) := by
  have he : c.toNat = c.val.toNat := rfl
  rcases c.valid with h | ⟨h1, h2⟩
  · exact Or.inl (by omega)
  · exact Or.inr ⟨by omega, by omega⟩

theorem hexVal_hexDig : ∀ n < 16, hexVal (hexDig n) = some n := by decide

theorem hex4Val_hex4 {n : Nat} (h : n < 65536) :
    hex4Val (hexDig (n / 4096 % 16)) (hexDig (n / 256 % 16))
      (hexDig (n / 16 % 16)) (hexDig (n % 16)) = some n := by
  have e1 := hexVal_hexDig (n / 4096 % 16) (Nat.mod_lt _ (by omega))
  have e2 := hexVal_hexDig (n / 256 % 16) (Nat.mod_lt _ (by omega))
  have e3 := hexVal_hexDig (n / 16 % 16) (Nat.mod_lt _ (by omega))
  have e4 := hexVal_hexDig (n % 16) (Nat.mod_lt _ (by omega))
  unfold hex4Val
  rw [e1, e2, e3, e4]
  show some (n / 4096 % 16 * 4096 + n / 256 % 16 * 256 + n / 16 % 16 * 16 + n % 16) =
    some n
  congr 1
  omega

theorem parseStrBody_close (f : Nat) (rest : List Char) :
    parseStrBody (f + 1) ('"' :: rest) = some ([], rest) := by
  rw [parseStrBody]
  rw [if_pos rfl]

theorem parseStrBody_lit {c : Char} (h1 : c ≠ '"') (h2 : c ≠ '\\') (h3 : 32 ≤ c.toNat)
    (f : Nat) (X : List Char) :
    parseStrBody (f + 1) (c :: X) =
      (parseStrBody f X).map (fun r => (c :: r.1, r.2)) := by
  have h4 : ¬ c.toNat < 32 := by omega
  rw [parseStrBody]
  rw [if_neg h1, if_neg h2, if_neg h4]

theorem parseStrBody_escape {cs : List Char} {d : Char} {cs2 : List Char}
    (h : decodeEsc cs = some (d, cs2)) (f : Nat) :
    parseStrBody (f + 1) ('\\' :: cs) =
      (parseStrBody f cs2).map (fun r => (d :: r.1, r.2)) := by
  rw [parseStrBody]
  simp [h]

theorem decodeEsc_simple {e d : Char} (he : e ≠ 'u') (hd : escSimple e = some d)
    (X : List Char) : decodeEsc (e :: X) = some (d, X) := by
  simp only [decodeEsc, if_neg he, hd]

theorem decodeEsc_u_bmp {v : Nat} (h16 : v < 65536) (hno : ¬(55296 ≤ v ∧ v ≤ 57343))
    (X : List Char) :
    decodeEsc ('u' :: hex4 v ++ X) = some (Char.ofNat v, X) := by
  simp only [hex4, List.cons_append, List.nil_append]
  simp only [decodeEsc, if_pos rfl, if_true]
  simp only [hex4Val_hex4 h16]
  rw [if_neg (by omega), if_neg (by omega)]

theorem decodeEsc_u_pair {v : Nat} (hlo : 65536 ≤ v) (hhi : v < 1114112)
    (X : List Char) :
    decodeEsc ('u' :: hex4 (55296 + (v - 65536) / 1024) ++
        ('\\' :: 'u' :: hex4 (56320 + (v - 65536) % 1024)) ++ X) =
      some (Char.ofNat v, X) := by
  have hq : (v - 65536) / 1024 < 1024 := by omega
  have hm : (v - 65536) % 1024 < 1024 := Nat.mod_lt _ (by omega)
  obtain ⟨w1, hw1⟩ : ∃ w1, w1 = 55296 + (v - 65536) / 1024 := ⟨_, rfl⟩
  obtain ⟨w2, hw2⟩ : ∃ w2, w2 = 56320 + (v - 65536) % 1024 := ⟨_, rfl⟩
  rw [← hw1, ← hw2]
  simp only [hex4, List.cons_append, List.nil_append, List.append_assoc]
  simp only [decodeEsc, if_pos rfl, if_true]
  simp only [hex4Val_hex4 (show w1 < 65536 by omega)]
  rw [if_pos (by omega)]
  simp only [and_self, if_true]
  simp only [hex4Val_hex4 (show w2 < 65536 by omega)]
  rw [if_pos (by omega)]
  have hcomb : 65536 + (w1 - 55296) * 1024 + (w2 - 56320) = v := by omega
  rw [hcomb]

theorem escString_cons (c : Char) (s : List Char) :
    escString (c :: s) = escChar c ++ escString s := rfl

theorem parseStrBody_escString : ∀ (s : List Char) (f : Nat) (rest : List Char),
    s.length < f → parseStrBody f (escString s ++ '"' :: rest) = some (s, rest) := by
  intro s
  induction s with
  | nil =>
    intro f rest hf
    cases f with
    | zero => omega
    | succ f => simpa [escString] using parseStrBody_close f rest
  | cons c s' ih =>
    intro f rest hf
    cases f with
    | zero => omega
    | succ f =>
      have hlen : s'.length < f := by simp at hf; omega
      have hv := char_valid_nat c
      have hns : ¬(55296 ≤ c.toNat ∧ c.toNat ≤ 57343) := by
        rcases hv with h | ⟨h', _⟩ <;> omega
      have hub : c.toNat < 1114112 := by
        rcases hv with h | ⟨_, h'⟩ <;> omega
      rw [escString_cons, List.append_assoc]
      have esc_case : ∀ (e : Char), e ≠ 'u' → escSimple e = some c →
          parseStrBody (f + 1) ('\\' :: e :: (escString s' ++ '"' :: rest)) =
            some (c :: s', rest) := by
        intro e he hd
        rw [parseStrBody_escape (decodeEsc_simple he hd _) f, ih f rest hlen]
        rfl
      by_cases h1 : c = '"'
      · subst h1
        exact esc_case '"' (by decide) rfl
      by_cases h2 : c = '\\'
      · subst h2
        exact esc_case '\\' (by decide) rfl
      by_cases h8 : c.toNat = 8
      · have hc : c = Char.ofNat 8 := by rw [← h8, Char.ofNat_toNat]
        have he : escChar c = ['\\', 'b'] := by simp [escChar, h1, h2, h8]
        rw [he]
        exact esc_case 'b' (by decide) (by rw [hc]; rfl)
      by_cases h9 : c.toNat = 9
      · have hc : c = Char.ofNat 9 := by rw [← h9, Char.ofNat_toNat]
        have he : escChar c = ['\\', 't'] := by simp [escChar, h1, h2, h8, h9]
        rw [he]
        exact esc_case 't' (by decide) (by rw [hc]; rfl)
      by_cases h10 : c.toNat = 10
      · have hc : c = Char.ofNat 10 := by rw [← h10, Char.ofNat_toNat]
        have he : escChar c = ['\\', 'n'] := by simp [escChar, h1, h2, h8, h9, h10]
        rw [he]
        exact esc_case 'n' (by decide) (by rw [hc]; rfl)
      by_cases h12 : c.toNat = 12
      · have hc : c = Char.ofNat 12 := by rw [← h12, Char.ofNat_toNat]
        have he : escChar c = ['\\', 'f'] := by simp [escChar, h1, h2, h8, h9, h10, h12]
        rw [he]
        exact esc_case 'f' (by decide) (by rw [hc]; rfl)
      by_cases h13 : c.toNat = 13
      · have hc : c = Char.ofNat 13 := by rw [← h13, Char.ofNat_toNat]
        have he : escChar c = ['\\', 'r'] := by
          simp [escChar, h1, h2, h8, h9, h10, h12, h13]
        rw [he]
        exact esc_case 'r' (by decide) (by rw [hc]; rfl)
      by_cases h32 : c.toNat < 32
      · have he : escChar c = '\\' :: 'u' :: hex4 c.toNat := by
          simp [escChar, h1, h2, h8, h9, h10, h12, h13, h32]
        rw [he]
        simp only [List.cons_append]
        have hb := decodeEsc_u_bmp (v := c.toNat) (by omega) hns
          (escString s' ++ '"' :: rest)
        simp only [List.cons_append, List.append_assoc] at hb
        rw [parseStrBody_escape hb f, ih f rest hlen]
        simp [Char.ofNat_toNat]
      by_cases h127 : c.toNat < 127
      · have he : escChar c = [c] := by
          simp [escChar, h1, h2, h8, h9, h10, h12, h13, h32, h127]
        rw [he]
        simp only [List.cons_append, List.nil_append]
        rw [parseStrBody_lit h1 h2 (by omega) f, ih f rest hlen]
        rfl
      by_cases h64k : c.toNat < 65536
      · have he : escChar c = '\\' :: 'u' :: hex4 c.toNat := by
          simp [escChar, h1, h2, h8, h9, h10, h12, h13, h32, h127, h64k]
        rw [he]
        simp only [List.cons_append]
        have hb := decodeEsc_u_bmp (v := c.toNat) (by omega) hns
          (escString s' ++ '"' :: rest)
        simp only [List.cons_append, List.append_assoc] at hb
        rw [parseStrBody_escape hb f, ih f rest hlen]
        simp [Char.ofNat_toNat]
      · have he : escChar c = '\\' :: 'u' :: hex4 (55296 + (c.toNat - 65536) / 1024) ++
            '\\' :: 'u' :: hex4 (56320 + (c.toNat - 65536) % 1024) := by
          simp [escChar, h1, h2, h8, h9, h10, h12, h13, h32, h127, h64k]
        rw [he]
        have hpair := decodeEsc_u_pair (v := c.toNat) (by omega) hub
          (escString s' ++ '"' :: rest)
        simp only [List.cons_append, List.append_assoc] at hpair ⊢
        rw [parseStrBody_escape hpair f, ih f rest hlen]
        simp [Char.ofNat_toNat]

theorem skipWs_cons {c : Char} (h : ¬(c = ' ' ∨ c = '\t' ∨ c = '\n' ∨ c = '\r'))
    (cs : List Char) : skipWs (c :: cs) = c :: cs := by
  rw [skipWs, if_neg h]

theorem skipWs_sp (cs : List Char) : skipWs (' ' :: cs) = skipWs cs := by
  rw [skipWs, if_pos (Or.inl rfl)]

set_option maxHeartbeats 1000000 in
theorem escChar_length_pos (c : Char) : 1 ≤ (escChar c).length := by
  unfold escChar
  split_ifs <;> simp [hex4]

theorem escString_length_ge (s : List Char) : s.length ≤ (escString s).length := by
  induction s with
  | nil => simp [escString]
  | cons c cs ih =>
    have h1 := escChar_length_pos c
    simp only [escString, List.length_append, List.length_cons]
    omega

theorem parseVal_jstr (f : Nat) (s X : List Char) :
    parseVal (f + 1) ('"' :: (escString s ++ '"' :: X)) = some (.jstr s, X) := by
  rw [parseVal]
  rw [skipWs_cons (by decide)]
  simp only [if_pos rfl]
  have hfuel : s.length < (escString s ++ '"' :: X).length + 1 := by
    have := escString_length_ge s
    simp only [List.length_append, List.length_cons]
    omega
  rw [parseStrBody_escString s _ X hfuel]
  rfl

theorem parseStr_after_quote (k TAIL : List Char) :
    parseStrBody ((escString k ++ '"' :: TAIL).length + 1) (escString k ++ '"' :: TAIL) =
      some (k, TAIL) :=
  parseStrBody_escString k _ TAIL
    (by have := escString_length_ge k
        simp only [List.length_append, List.length_cons]
        omega)

theorem parseVal_sp (f : Nat) (cs : List Char) :
    parseVal (f + 1) (' ' :: cs) = parseVal (f + 1) cs := by
  conv_lhs => rw [parseVal]
  conv_rhs => rw [parseVal]
  rw [skipWs_sp]

theorem parsePairs_sp (f : Nat) (cs : List Char) :
    parsePairs (f + 1) (' ' :: cs) = parsePairs (f + 1) cs := by
  conv_lhs => rw [parsePairs]
  conv_rhs => rw [parsePairs]
  rw [skipWs_sp]

theorem parseVal_obj_step (f : Nat) (Z : List Char) :
    parseVal (f + 1) (lbrace :: '"' :: Z) =
      (parsePairs f ('"' :: Z)).map (fun r => (JVal.jobj r.1, r.2)) := by
  have hws1 : ¬(lbrace = ' ' ∨ lbrace = '\t' ∨ lbrace = '\n' ∨ lbrace = '\r') := by decide
  have hws2 : ¬(('"' : Char) = ' ' ∨ ('"' : Char) = '\t' ∨ ('"' : Char) = '\n' ∨
      ('"' : Char) = '\r') := by decide
  have h1 : ¬(lbrace = '"') := by decide
  have h2 : ¬(lbrace = '[') := by decide
  have h3 : ¬(('"' : Char) = rbrace) := by decide
  simp only [parseVal, skipWs_cons hws1, skipWs_cons hws2, if_neg h1, if_neg h2,
    if_pos rfl, if_neg h3, if_true]

theorem parsePairs_strpair_close (f : Nat) (k v R : List Char) :
    parsePairs (f + 2)
      ('"' :: (escString k ++ '"' :: ':' :: ' ' :: '"' :: (escString v ++ '"' :: rbrace :: R))) =
      some ([(k, JVal.jstr v)], R) := by
  have hq : ¬(('"' : Char) = ' ' ∨ ('"' : Char) = '\t' ∨ ('"' : Char) = '\n' ∨
      ('"' : Char) = '\r') := by decide
  have hcolon : ¬((':' : Char) = ' ' ∨ (':' : Char) = '\t' ∨ (':' : Char) = '\n' ∨
      (':' : Char) = '\r') := by decide
  have hrb : ¬(rbrace = ' ' ∨ rbrace = '\t' ∨ rbrace = '\n' ∨ rbrace = '\r') := by decide
  show parsePairs (f + 1 + 1) _ = _
  simp only [parsePairs, skipWs_cons hq, if_pos rfl]
  rw [parseStr_after_quote]
  simp only [skipWs_cons hcolon]
  rw [parseVal_sp f, parseVal_jstr f]
  simp only [skipWs_cons hrb]
  rfl

theorem parsePairs_strpair_comma (f : Nat) (k v REST : List Char) :
    parsePairs (f + 2)
      ('"' :: (escString k ++ '"' :: ':' :: ' ' :: '"' ::
        (escString v ++ '"' :: ',' :: ' ' :: REST))) =
      (parsePairs (f + 1) (' ' :: REST)).map (fun p => ((k, JVal.jstr v) :: p.1, p.2)) := by
  have hq : ¬(('"' : Char) = ' ' ∨ ('"' : Char) = '\t' ∨ ('"' : Char) = '\n' ∨
      ('"' : Char) = '\r') := by decide
  have hcolon : ¬((':' : Char) = ' ' ∨ (':' : Char) = '\t' ∨ (':' : Char) = '\n' ∨
      (':' : Char) = '\r') := by decide
  have hcomma : ¬((',' : Char) = ' ' ∨ (',' : Char) = '\t' ∨ (',' : Char) = '\n' ∨
      (',' : Char) = '\r') := by decide
  show parsePairs (f + 1 + 1) _ = _
  simp only [parsePairs, skipWs_cons hq, if_pos rfl]
  rw [parseStr_after_quote]
  simp only [skipWs_cons hcolon]
  rw [parseVal_sp f, parseVal_jstr f]
  simp only [skipWs_cons hcomma]
  simp only [if_true]

theorem parseVal_sp' (f : Nat) (cs : List Char) :
    parseVal f (' ' :: cs) = parseVal f cs := by
  cases f with
  | zero => rfl
  | succ f => exact parseVal_sp f cs

theorem parsePairs_sp' (f : Nat) (cs : List Char) :
    parsePairs f (' ' :: cs) = parsePairs f cs := by
  cases f with
  | zero => rfl
  | succ f => exact parsePairs_sp f cs

def contactVal (c : Contact) : JVal :=
  .jobj [(c.name, .jobj [("address".toList, .jstr c.address),
    ("phone_number".toList, .jstr c.phone_number)])]

theorem parsePairs_outer (f : Nat) (c : Contact) (X : List Char) :
    parsePairs (f + 5) ('"' :: (escString c.name ++ '"' :: ':' :: ' ' :: lbrace :: '"' ::
      (escString "address".toList ++ '"' :: ':' :: ' ' :: '"' ::
        (escString c.address ++ '"' :: ',' :: ' ' :: '"' ::
          (escString "phone_number".toList ++ '"' :: ':' :: ' ' :: '"' ::
            (escString c.phone_number ++ '"' :: rbrace :: rbrace :: X)))))) =
      some ([(c.name, JVal.jobj [("address".toList, JVal.jstr c.address),
        ("phone_number".toList, JVal.jstr c.phone_number)])], X) := by
  have hq : ¬(('"' : Char) = ' ' ∨ ('"' : Char) = '\t' ∨ ('"' : Char) = '\n' ∨
      ('"' : Char) = '\r') := by decide
  have hcolon : ¬((':' : Char) = ' ' ∨ (':' : Char) = '\t' ∨ (':' : Char) = '\n' ∨
      (':' : Char) = '\r') := by decide
  have hrb : ¬(rbrace = ' ' ∨ rbrace = '\t' ∨ rbrace = '\n' ∨ rbrace = '\r') := by decide
  show parsePairs (f + 4 + 1) _ = _
  simp only [parsePairs, skipWs_cons hq, if_pos rfl]
  rw [parseStr_after_quote]
  simp only [skipWs_cons hcolon]
  rw [show f + 4 = f + 3 + 1 by omega]
  rw [parseVal_sp']
  rw [parseVal_obj_step (f + 3)]
  rw [show f + 3 = f + 1 + 2 by omega]
  rw [parsePairs_strpair_comma (f + 1)]
  rw [parsePairs_sp']
  rw [show f + 1 + 1 = f + 2 by omega]
  rw [parsePairs_strpair_close f]
  simp only [Option.map_some']
  simp only [skipWs_cons hrb]
  rfl

theorem parseVal_contact (f : Nat) (c : Contact) (X : List Char) :
    parseVal (f + 6) (jsonContact c ++ X) = some (contactVal c, X) := by
  have e : jsonContact c ++ X = lbrace :: '"' :: (escString c.name ++ '"' :: ':' :: ' ' ::
      lbrace :: '"' :: (escString "address".toList ++ '"' :: ':' :: ' ' :: '"' ::
        (escString c.address ++ '"' :: ',' :: ' ' :: '"' ::
          (escString "phone_number".toList ++ '"' :: ':' :: ' ' :: '"' ::
            (escString c.phone_number ++ '"' :: rbrace :: rbrace :: X))))) := by
    simp [jsonContact]
  rw [e]
  rw [show f + 6 = f + 5 + 1 by omega]
  rw [parseVal_obj_step (f + 5)]
  rw [parsePairs_outer f c X]
  rfl

theorem parseItems_sp' (f : Nat) (cs : List Char) :
    parseItems f (' ' :: cs) = parseItems f cs := by
  cases f with
  | zero => rfl
  | succ f =>
    conv_lhs => rw [parseItems]
    conv_rhs => rw [parseItems]
    rw [parseVal_sp']

theorem parseItems_dumps : ∀ (l : List Contact), l ≠ [] → ∀ f X, l.length + 6 ≤ f →
    parseItems f (jsonItems l ++ ']' :: X) = some (l.map contactVal, X) := by
  have hrbkt : ¬((']' : Char) = ' ' ∨ (']' : Char) = '\t' ∨ (']' : Char) = '\n' ∨
      (']' : Char) = '\r') := by decide
  have hcomma : ¬((',' : Char) = ' ' ∨ (',' : Char) = '\t' ∨ (',' : Char) = '\n' ∨
      (',' : Char) = '\r') := by decide
  intro l
  induction l with
  | nil => intro h; exact absurd rfl h
  | cons c l' ih =>
    intro _ f X hf
    obtain ⟨g, rfl⟩ : ∃ g, f = g + 6 + 1 :=
      ⟨f - 7, by simp only [List.length_cons] at hf; omega⟩
    by_cases hl' : l' = []
    · subst hl'
      rw [parseItems]
      rw [show jsonItems [c] = jsonContact c from rfl]
      rw [parseVal_contact g c (']' :: X)]
      simp only [skipWs_cons hrbkt]
      rfl
    · rw [parseItems]
      have e : jsonItems (c :: l') ++ ']' :: X =
          jsonContact c ++ (',' :: ' ' :: (jsonItems l' ++ ']' :: X)) := by
        cases l' with
        | nil => exact absurd rfl hl'
        | cons d l'' => simp [jsonItems]
      rw [e, parseVal_contact g c _]
      simp only [skipWs_cons hcomma]
      rw [parseItems_sp']
      rw [ih hl' (g + 6) X (by simp only [List.length_cons] at hf ⊢; omega)]
      rfl

theorem jsonContact_length_ge (c : Contact) : 41 ≤ (jsonContact c).length := by
  have e7 : (escString ['a', 'd', 'd', 'r', 'e', 's', 's']).length = 7 := rfl
  have e12 : (escString ['p', 'h', 'o', 'n', 'e', '_', 'n', 'u', 'm', 'b', 'e', 'r']).length =
      12 := rfl
  simp [jsonContact]
  omega

theorem jsonItems_length_ge : ∀ l : List Contact, l ≠ [] →
    l.length + 4 ≤ (jsonItems l).length := by
  intro l
  induction l with
  | nil => intro h; exact absurd rfl h
  | cons c l' ih =>
    intro _
    by_cases h : l' = []
    · subst h
      have := jsonContact_length_ge c
      simp only [jsonItems, List.length_cons, List.length_nil]
      omega
    · have h1 := jsonContact_length_ge c
      have h2 := ih h
      have e : jsonItems (c :: l') = jsonContact c ++ ',' :: ' ' :: jsonItems l' := by
        cases l' with
        | nil => exact absurd rfl h
        | cons d l'' => simp [jsonItems]
      rw [e]
      simp only [List.length_append, List.length_cons]
      omega

theorem jsonLoads_dumps (l : List Contact) :
    jsonLoads (jsonDumpsColl l) = some (jsonOfContacts l) := by
  have hlbkt : ¬(('[' : Char) = ' ' ∨ ('[' : Char) = '\t' ∨ ('[' : Char) = '\n' ∨
      ('[' : Char) = '\r') := by decide
  have hlb : ¬(lbrace = ' ' ∨ lbrace = '\t' ∨ lbrace = '\n' ∨ lbrace = '\r') := by decide
  have hbq : ¬(('[' : Char) = '"') := by decide
  have hbb : ¬(lbrace = ']') := by decide
  cases l with
  | nil => rfl
  | cons c l' =>
    unfold jsonLoads
    have e : jsonDumpsColl (c :: l') = '[' :: (jsonItems (c :: l') ++ ']' :: []) := by
      simp [jsonDumpsColl]
    rw [e]
    obtain ⟨t, ht⟩ : ∃ t, jsonItems (c :: l') ++ ']' :: ([] : List Char) = lbrace :: t := by
      cases l' with
      | nil => exact ⟨_, rfl⟩
      | cons d l'' => exact ⟨_, rfl⟩
    simp only [parseVal, skipWs_cons hlbkt, if_neg hbq, if_pos rfl, if_true, ht,
      skipWs_cons hlb, if_neg hbb]
    rw [show ('[' :: lbrace :: t).length = (lbrace :: t).length + 1 from rfl]
    rw [← ht]
    rw [parseItems_dumps (c :: l') (by simp) _ [] (by
      have := jsonItems_length_ge (c :: l') (by simp)
      simp only [List.length_cons, List.length_append, List.length_nil] at this ⊢
      omega)]
    rfl

/-- C7: the structured interchange codec is a lossless round trip on every
canonical collection: decoding the encoded text returns exactly the
canonical value that was encoded (paired with the decoded text's length,
as the source's `json_decode` does). -/
theorem claim_C7_json_round_trip (l : List Contact) :
    json_decode (json_encode l).1 =
      some (jsonOfContacts l, (json_encode l).1.length) := by
  unfold json_decode json_encode
  simp only [jsonLoads_dumps, Option.map_some']

/-! ### The human-readable key-value codec (`yaml_encode` / `yaml_decode`)

`yaml_encode` is `(yaml.dump(obj), len(obj))` and `yaml_decode` is
`(yaml.safe_load(s), len(s))` (lines 120-142 of the source).  `yaml_decode`
performs no validation of the parsed value's shape: whatever the parser
yields is returned. -/

/-- A parsed YAML value in the fragment the claims exercise. -/
inductive YVal where
  | yint : Nat → YVal
  | ystr : List Char → YVal
  | yseq : List YVal → YVal

def ywsChar (c : Char) : Bool :=
  c == ' ' || c == '\n' || c == '\t' || c == '\r'

def stripWs (s : List Char) : List Char :=
  ((s.dropWhile ywsChar).reverse.dropWhile ywsChar).reverse

def isDigitCh (c : Char) : Bool :=
  48 ≤ c.toNat && c.toNat ≤ 57

def digitsToNat (s : List Char) : Nat :=
  s.foldl (fun acc c => acc * 10 + (c.toNat - 48)) 0

/-- Modelled from the library: `yaml.safe_load` on the input fragment the
claims exercise — the flow empty sequence `[]` and plain non-negative
integer scalars without leading zeros (YAML 1.1 reads leading-zero
numbers as octal, so those and all other inputs are left unmodelled,
`none`). -/
def yamlSafeLoad (s : List Char) : Option YVal :=
  let t := stripWs s
  if t = "[]".toList then some (.yseq [])
  else if t ≠ [] ∧ t.all isDigitCh ∧ (t.headD '0' ≠ '0' ∨ t = ['0']) then
    some (.yint (digitsToNat t))
  else none

def yaml_decode (yaml_string : List Char) : Option (YVal × Nat) :=
  (yamlSafeLoad yaml_string).map (fun v => (v, yaml_string.length))

/-- Modelled from the library: `yaml.dump` of the canonical collection
with plain-scalar fields (default settings; keys sorted, so `address`
precedes `phone_number`). -/
def yamlDump : List Contact → List Char
  | [] => "[]\n".toList
  | contacts =>
    (contacts.map (fun c => "- ".toList ++ c.name ++ ":\n    address: ".toList ++
      c.address ++ "\n    phone_number: ".toList ++ c.phone_number ++ ['\n'])).flatten

def yaml_encode (obj : List Contact) : List Char × Nat :=
  (yamlDump obj, obj.length)

/-- Decimal digits of `n`, most significant first (`str(n)` in Python). -/
def natDigits (n : Nat) : List Char :=
  if h : n < 10 then [Char.ofNat (48 + n)]
  else natDigits (n / 10) ++ [Char.ofNat (48 + n % 10)]
termination_by n
decreasing_by omega

theorem char_toNat_ofNat {n : Nat} (h : n.isValidChar) : (Char.ofNat n).toNat = n := by
  unfold Char.ofNat
  rw [dif_pos h]
  rfl

theorem natDigits_all_digit : ∀ n, ∀ c ∈ natDigits n, isDigitCh c = true := by
  intro n
  induction n using Nat.strong_induction_on with
  | _ n ih =>
    rw [natDigits]
    split_ifs with h
    · intro c hc
      simp only [List.mem_singleton] at hc
      subst hc
      have hv : (48 + n).isValidChar := Or.inl (by omega)
      simp [isDigitCh, char_toNat_ofNat hv]
      omega
    · intro c hc
      rw [List.mem_append] at hc
      rcases hc with hc | hc
      · exact ih (n / 10) (by omega) c hc
      · simp only [List.mem_singleton] at hc
        subst hc
        have hv : (48 + n % 10).isValidChar := Or.inl (by omega)
        simp [isDigitCh, char_toNat_ofNat hv]
        omega

theorem natDigits_ne_nil (n : Nat) : natDigits n ≠ [] := by
  rw [natDigits]
  split_ifs <;> simp

theorem digitsToNat_natDigits : ∀ n, digitsToNat (natDigits n) = n := by
  intro n
  induction n using Nat.strong_induction_on with
  | _ n ih =>
    rw [natDigits]
    split_ifs with h
    · have hv : (48 + n).isValidChar := Or.inl (by omega)
      simp [digitsToNat, char_toNat_ofNat hv]
    · have hv : (48 + n % 10).isValidChar := Or.inl (by omega)
      unfold digitsToNat
      rw [List.foldl_append]
      have ihd := ih (n / 10) (by omega)
      unfold digitsToNat at ihd
      rw [ihd]
      simp [char_toNat_ofNat hv]
      omega

theorem natDigits_head_spec (n : Nat) :
    (natDigits n).headD '0' ≠ '0' ∨ natDigits n = ['0'] := by
  induction n using Nat.strong_induction_on with
  | _ n ih =>
    rw [natDigits]
    split_ifs with h
    · by_cases h0 : n = 0
      · subst h0
        right
        rfl
      · left
        intro heq
        have hv : (48 + n).isValidChar := Or.inl (by omega)
        have := congrArg Char.toNat heq
        simp only [List.headD_cons] at this
        rw [char_toNat_ofNat hv] at this
        have h48 : ('0' : Char).toNat = 48 := rfl
        omega
    · have hne := natDigits_ne_nil (n / 10)
      have hh : ((natDigits (n / 10) ++ [Char.ofNat (48 + n % 10)]).headD '0') =
          (natDigits (n / 10)).headD '0' := by
        cases hd : natDigits (n / 10) with
        | nil => exact absurd hd hne
        | cons x xs => simp
      rw [hh]
      rcases ih (n / 10) (by omega) with hcase | hcase
      · left
        intro heq
        rw [heq] at hcase
        · exact hcase rfl
      · have := digitsToNat_natDigits (n / 10)
        rw [hcase] at this
        have h0 : digitsToNat ['0'] = 0 := rfl
        rw [h0] at this
        omega

theorem dropWhile_eq_self_of_all {p : Char → Bool} :
    ∀ l : List Char, (∀ c ∈ l, p c = false) → l.dropWhile p = l := by
  intro l h
  cases l with
  | nil => rfl
  | cons c cs => simp [List.dropWhile, h c (by simp)]

theorem natDigits_not_ws (n : Nat) : ∀ c ∈ natDigits n, ywsChar c = false := by
  intro c hc
  have hd := natDigits_all_digit n c hc
  simp only [isDigitCh, Bool.and_eq_true, decide_eq_true_eq] at hd
  have h32 : (' ' : Char).toNat = 32 := rfl
  have h10 : ('\n' : Char).toNat = 10 := rfl
  have h9 : ('\t' : Char).toNat = 9 := rfl
  have h13 : ('\r' : Char).toNat = 13 := rfl
  simp only [ywsChar, Bool.or_eq_false_iff, beq_eq_false_iff_ne, ne_eq]
  refine ⟨⟨⟨?_, ?_⟩, ?_⟩, ?_⟩ <;>
    · intro heq
      rw [heq] at hd
      omega

theorem stripWs_natDigits (n : Nat) : stripWs (natDigits n) = natDigits n := by
  have hws := natDigits_not_ws n
  unfold stripWs
  rw [dropWhile_eq_self_of_all _ hws]
  rw [dropWhile_eq_self_of_all _ (by
    intro c hc
    exact hws c (List.mem_reverse.mp hc))]
  simp

theorem natDigits_ne_flowseq (n : Nat) : natDigits n ≠ "[]".toList := by
  intro h
  have h1 : isDigitCh '[' = true := natDigits_all_digit n '[' (by rw [h]; simp)
  exact absurd h1 (by decide)

/-- C3 (counterexample): the YAML codec's decode does not reject a bare
scalar top level: decoding `"5"` returns the parsed integer (paired with
the input length), signaling no error. -/
theorem claim_C3_scalar_not_rejected :
    yaml_decode "5".toList = some (.yint 5, 1) := rfl

/-- C3 (amended): `yaml_decode` performs no top-level shape validation: it
returns whatever the parser yields, including non-sequence values — for
every natural number, decoding its decimal text yields that integer
scalar, with no `DecodeError` signaled. -/
theorem claim_C3_amended_no_validation (n : Nat) :
    yaml_decode (natDigits n) = some (.yint n, (natDigits n).length) := by
  unfold yaml_decode yamlSafeLoad
  simp only [stripWs_natDigits]
  rw [if_neg (natDigits_ne_flowseq n)]
  rw [if_pos ⟨natDigits_ne_nil n,
    List.all_eq_true.mpr (fun c hc => natDigits_all_digit n c hc),
    natDigits_head_spec n⟩]
  rw [digitsToNat_natDigits]
  rfl

/-! ### The codec registry (`register_codecs` and resolution)

`register_codecs` (lines 57-72 of the source) calls `codecs.register` on
the four search functions; the Python `codecs` machinery is modelled by
`pyCodecsRegister` (unconditional append to the search path, as CPython's
`codecs.register` does) and `pyCodecsLookup` (first non-`None` resolver
wins; otherwise `LookupError('unknown encoding: <name>')`; the per-name
cache and name normalization are not modelled — the modelled names are
already normalized and no cache is populated in the scenarios proved). -/

/-- Models `codecs.CodecInfo` by its name; the transform pair it carries
is the corresponding encode/decode function pair defined above. -/
structure CodecInfo where
  name : String
deriving DecidableEq, Repr

def json_search (encoding : String) : Option CodecInfo :=
  if encoding = "json" then some ⟨"json"⟩ else none

def yaml_search (encoding : String) : Option CodecInfo :=
  if encoding = "yaml" then some ⟨"yaml"⟩ else none

def html_table_search (encoding : String) : Option CodecInfo :=
  if encoding = "html_table" then some ⟨"html_table"⟩ else none

def formatted_text_search (encoding : String) : Option CodecInfo :=
  if encoding = "formatted_text" then some ⟨"formatted_text"⟩ else none

/-- The four resolver functions the module registers. -/
inductive CodecResolver where
  | jsonR | yamlR | htmlR | textR
deriving DecidableEq, Repr

def resolverApply : CodecResolver → String → Option CodecInfo
  | .jsonR => json_search
  | .yamlR => yaml_search
  | .htmlR => html_table_search
  | .textR => formatted_text_search

/-- CPython `codecs.register`: append to the search path, with no
duplicate check. -/
def pyCodecsRegister (path : List CodecResolver) (r : CodecResolver) : List CodecResolver :=
  path ++ [r]

def register_codecs (path : List CodecResolver) : List CodecResolver :=
  pyCodecsRegister (pyCodecsRegister (pyCodecsRegister
    (pyCodecsRegister path .jsonR) .yamlR) .htmlR) .textR

/-- CPython codec lookup: query resolvers in registration order, first
non-`None` match wins; otherwise `LookupError('unknown encoding: <name>')`. -/
def pyCodecsLookup (path : List CodecResolver) (encoding : String) : Except String CodecInfo :=
  match path.findSome? (fun r => resolverApply r encoding) with
  | some ci => .ok ci
  | none => .error ("unknown encoding: " ++ encoding)

/-- Substring test used to state what an error message does not mention. -/
def containsSub (pat s : List Char) : Bool :=
  (List.range (s.length + 1)).any (fun i => pat.isPrefixOf (s.drop i))

theorem findSome?_append_cases {α β : Type} (l₁ l₂ : List α) (f : α → Option β) :
    (l₁ ++ l₂).findSome? f =
      match l₁.findSome? f with
      | some b => some b
      | none => l₂.findSome? f := by
  induction l₁ with
  | nil => rfl
  | cons a as ih =>
    simp only [List.cons_append, List.findSome?]
    cases f a with
    | some b => rfl
    | none => exact ih

/-- C4 (counterexample): resolution of an unregistered format fails with
CPython's `LookupError` message, which names the requested format but does
not carry the list of known formats (it does not even mention `json`). -/
theorem claim_C4_unknown_format_error_shape :
    pyCodecsLookup (register_codecs []) "unknown_format" =
      .error "unknown encoding: unknown_format" ∧
    containsSub "json".toList "unknown encoding: unknown_format".toList = false := by
  constructor
  · rfl
  · rfl

/-- C4 (amended): for every format name no registered resolver claims,
resolution (and hence encode/decode through `write_file`/`read_file`,
which delegate to this lookup) fails with a `LookupError` naming exactly
the requested format. -/
theorem claim_C4_amended_unknown_format (enc : String)
    (h : ∀ r ∈ register_codecs [], resolverApply r enc = none) :
    pyCodecsLookup (register_codecs []) enc =
      .error ("unknown encoding: " ++ enc) := by
  unfold pyCodecsLookup
  have he : (register_codecs []).findSome? (fun r => resolverApply r enc) = none := by
    rw [List.findSome?_eq_none_iff]
    exact h
  rw [he]

/-- C4 (witness): the amended statement at the format `unknown_format`. -/
theorem claim_C4_amended_unknown_format_witness :
    (∀ r ∈ register_codecs [], resolverApply r "unknown_format" = none) ∧
    pyCodecsLookup (register_codecs []) "unknown_format" =
      .error ("unknown encoding: " ++ "unknown_format") :=
  ⟨by decide, claim_C4_amended_unknown_format _ (by decide)⟩

/-- C5 (counterexample): calling `register_codecs` twice appends the four
resolvers twice: the search path holds duplicate entries. -/
theorem claim_C5_reregistration_duplicates :
    register_codecs (register_codecs []) =
      [.jsonR, .yamlR, .htmlR, .textR, .jsonR, .yamlR, .htmlR, .textR] ∧
    ¬ (register_codecs (register_codecs [])).Nodup := by
  constructor
  · rfl
  · decide

/-- C5 (amended): re-registration appends duplicate resolver entries, but
resolution is unaffected: for every format name, lookup after registering
twice returns exactly what it returns after registering once (the first
matching resolver wins). -/
theorem claim_C5_amended_resolution_unchanged (enc : String) :
    pyCodecsLookup (register_codecs (register_codecs [])) enc =
      pyCodecsLookup (register_codecs []) enc := by
  unfold pyCodecsLookup
  have e : register_codecs (register_codecs []) =
      register_codecs [] ++ register_codecs [] := rfl
  rw [e, findSome?_append_cases]
  cases hf : (register_codecs []).findSome? (fun r => resolverApply r enc) with
  | some ci => rfl
  | none => rfl

set_option maxRecDepth 8000 in
/-- C8: for each of the four codecs, encoding the empty collection and
decoding the result yields the empty collection (paired with the length
the source's decode returns), with no spurious records. -/
theorem claim_C8_empty_collection_round_trip :
    json_decode (json_encode []).1 = some (jsonOfContacts [], 2) ∧
    yaml_decode (yaml_encode []).1 = some (.yseq [], 3) ∧
    html_table_decode (html_table_encode []).1 = some ([], 0) ∧
    formatted_text_decode (formatted_text_encode []).1 = some ([], 0) := by
  refine ⟨rfl, rfl, rfl, rfl⟩
